import Mathlib

/-!
# Verification of the zkSync web3 `eth_call` emulation core (`calls.rs`)

Shallow embedding of `core/bin/zksync_api/src/api_server/web3/calls.rs`:
the base-58 / IPFS-CID codec, the keccak-256 selector table builder, and the
`execute` call dispatcher, together with proofs of the specified properties.

Bytes are modelled as `Nat` values below 256; machine integers (`u32` carries,
`u8` digits) carry explicit `% 2 ^ w` reductions where the source performs
casts.  Fallible paths return `Except`; a Rust panic (out-of-bounds array
write, `unreachable!`) is modelled as `Option.none` at the outermost level.

The storage layer (`zksync_storage`) and the ABI crate (`ethabi`) are external
collaborators of this file's source; they are modelled as oracles
(`StorageProcessor` fields, `Function.decode_input`) that theorems quantify
over.  `keccak256` (from `tiny_keccak`) is implemented concretely, from the
Keccak reference algorithm, so that concrete selector values can be computed.
-/

namespace ZkCalls

/-! ## Base-58 codec (`CallsHelper::to_base58`, `to_alphabet`, `ipfs_cid`) -/

/-- The fixed 58-character alphabet (`CallsHelper::ALPHABET`). -/
def ALPHABET : String := "123456789ABCDEFGHJKLMNPQRSTUVWXYZabcdefghijkmnopqrstuvwxyz"

/-- `CallsHelper::SHA256_MULTI_HASH`: multihash header `{0x12, 0x20}`. -/
def SHA256_MULTI_HASH : List Nat := [18, 32]

def alphaChars : List Char := ALPHABET.toList

/-- `CallsHelper::to_alphabet`: map each digit to its alphabet character. -/
def to_alphabet (indices : List Nat) : String :=
  String.mk (indices.map (fun i => alphaChars.getD i 'A'))

/-- The inner `for j in 0..digit_length` pass of `to_base58`: multiply the
first `k` base-58 digits by 256 and add the incoming carry, propagating
carries.  `carry` is a `u32` (hence the `% 2 ^ 32`), stored digits are `u8`
(hence the `% 256` on the `as u8` cast of `carry % 58`). -/
def innerLoop : Nat → Nat → List Nat → Nat × List Nat
  | carry, 0, ds => (carry, ds)
  | carry, _ + 1, [] => (carry, [])
  | carry, k + 1, d :: rest =>
    let c := (carry + d * 256) % (2 ^ 32)
    let r := innerLoop (c / 58) k rest
    (r.1, (c % 58) % 256 :: r.2)

/-- The `while carry > 0` pass of `to_base58`, writing new digits at positions
`len, len + 1, …`.  The source writes `digits[digit_length]` into a fixed
`[u8; 46]` array, which panics when `digit_length ≥ 46`: that panic is the
`none` outcome.  Structured with fuel (`fuel ≥ carry` suffices) so the
definition computes by kernel reduction. -/
def whileLoopAux : Nat → Nat → Nat → List Nat → Option (Nat × List Nat)
  | 0, _, len, ds => some (len, ds)
  | fuel + 1, carry, len, ds =>
    if carry = 0 then some (len, ds)
    else if 46 ≤ len then none
    else whileLoopAux fuel (carry / 58) (len + 1) (ds.set len ((carry % 58) % 256))

def whileLoop (carry len : Nat) (ds : List Nat) : Option (Nat × List Nat) :=
  whileLoopAux carry carry len ds

/-- The outer `for carry in source` loop of `to_base58`, threading the digit
array and the significant-digit count. -/
def b58Fold : List Nat → Nat → List Nat → Option (Nat × List Nat)
  | [], len, ds => some (len, ds)
  | b :: rest, len, ds =>
    let r := innerLoop b len ds
    match whileLoop r.1 len r.2 with
    | none => none
    | some p => b58Fold rest p.1 p.2

/-- `CallsHelper::to_base58`: fixed 46-entry digit accumulator, initial
`digit_length = 1`; the whole (reversed) array is rendered, significant or
not.  `none` models the out-of-bounds panic. -/
def to_base58 (source : List Nat) : Option String :=
  match b58Fold source 1 (List.replicate 46 0) with
  | none => none
  | some p => some (to_alphabet p.2.reverse)

/-- `CallsHelper::ipfs_cid`: prepend the multihash header, then base-58. -/
def ipfs_cid (source : List Nat) : Option String :=
  to_base58 (SHA256_MULTI_HASH ++ source)

/-! ### Value functions and an inverse, for stating the codec properties -/

/-- Big-endian base-256 value of a byte sequence. -/
def beVal (bs : List Nat) : Nat := bs.foldl (fun a b => a * 256 + b) 0

/-- Little-endian base-58 value of a digit sequence (digit 0 least
significant, matching the accumulator layout in `to_base58`). -/
def leVal58 (ds : List Nat) : Nat := ds.foldr (fun d a => d + 58 * a) 0

/-- Read a base-58 string back as a big-endian integer, each character taken
as its index in the fixed alphabet. -/
def decodeB58 (s : String) : Nat :=
  s.toList.foldl (fun a c => 58 * a + alphaChars.findIdx (fun x => x == c)) 0

/-- Minimal big-endian base-256 byte representation of `n` (no leading
zeros; `0` maps to `[]`).  Fueled so it computes by kernel reduction. -/
def bytesOfNatAux : Nat → Nat → List Nat
  | 0, _ => []
  | fuel + 1, n => if n = 0 then [] else bytesOfNatAux fuel (n / 256) ++ [n % 256]

def bytesOfNat (n : Nat) : List Nat := bytesOfNatAux n n

/-! ## Keccak-256 (external `tiny_keccak::keccak256`, implemented from the
Keccak reference: 25 lanes of 64 bits, rate 136 bytes, `0x01 … 0x80`
padding). -/

def mask64 : Nat := 2 ^ 64 - 1

def rotl (r x : Nat) : Nat := ((x <<< r) ||| (x >>> (64 - r))) &&& mask64

/-- θ step. -/
def theta (a : List Nat) : List Nat :=
  let c := (List.range 5).map (fun x =>
    (a.getD x 0) ^^^ (a.getD (x + 5) 0) ^^^ (a.getD (x + 10) 0) ^^^
      (a.getD (x + 15) 0) ^^^ (a.getD (x + 20) 0))
  let d := (List.range 5).map (fun x =>
    (c.getD ((x + 4) % 5) 0) ^^^ rotl 1 (c.getD ((x + 1) % 5) 0))
  (List.range 25).map (fun i => (a.getD i 0) ^^^ (d.getD (i % 5) 0))

/-- ρ rotation offsets, generated by the `(x,y) ← (y, 2x+3y)` walk of the
Keccak specification; offsets are `(t+1)(t+2)/2 mod 64`. -/
def rhoPairsAux : Nat → Nat → Nat → Nat → List (Nat × Nat)
  | 0, _, _, _ => []
  | fuel + 1, t, x, y =>
    (x + 5 * y, ((t + 1) * (t + 2) / 2) % 64) ::
      rhoPairsAux fuel (t + 1) y ((2 * x + 3 * y) % 5)

def rhoPairs : List (Nat × Nat) := rhoPairsAux 24 0 1 0

def rotOff (i : Nat) : Nat :=
  ((rhoPairs.find? (fun p => p.1 == i)).map Prod.snd).getD 0

/-- Combined ρ and π steps: lane `(x, y)` is rotated and moved to
`(y, 2x + 3y mod 5)`. -/
def rhopi (a : List Nat) : List Nat :=
  (List.range 25).foldl
    (fun b i =>
      let x := i % 5
      let y := i / 5
      b.set (y + 5 * ((2 * x + 3 * y) % 5)) (rotl (rotOff i) (a.getD i 0)))
    (List.replicate 25 0)

/-- χ step. -/
def chi (a : List Nat) : List Nat :=
  (List.range 25).map (fun i =>
    let x := i % 5
    let y := i / 5
    (a.getD i 0) ^^^
      ((mask64 ^^^ a.getD ((x + 1) % 5 + 5 * y) 0) &&& a.getD ((x + 2) % 5 + 5 * y) 0))

/-- ι step. -/
def iota (rc : Nat) (a : List Nat) : List Nat := a.set 0 ((a.getD 0 0) ^^^ rc)

/-- The `LFSR86540` step generating round-constant bits
(polynomial `x^8 + x^6 + x^5 + x^4 + 1`). -/
def lfsrStep (r : Nat) : Bool × Nat :=
  (r % 2 = 1, if 128 ≤ r then ((r * 2) ^^^ 113) % 256 else (r * 2) % 256)

/-- One round constant: bits `2^j - 1` for `j = 0 … 6`, drawn from the LFSR. -/
def rcLane (r0 : Nat) : Nat × Nat :=
  List.foldl
    (fun (p : Nat × Nat) (j : Nat) =>
      let s := lfsrStep p.2
      (if s.1 then p.1 ^^^ 2 ^ (2 ^ j - 1) else p.1, s.2))
    (0, r0) [0, 1, 2, 3, 4, 5, 6]

def roundConstantsAux : Nat → Nat → List Nat
  | 0, _ => []
  | n + 1, r =>
    let p := rcLane r
    p.1 :: roundConstantsAux n p.2

def roundConstants : List Nat := roundConstantsAux 24 1

/-- Keccak-f[1600]: 24 rounds of θ, ρ, π, χ, ι. -/
def keccakF (a : List Nat) : List Nat :=
  roundConstants.foldl (fun st rc => iota rc (chi (rhopi (theta st)))) a

/-- Original Keccak padding at rate 136: `0x01`, zeros, `0x80` (a single
`0x81` byte when only one padding byte fits). -/
def keccakPad (msg : List Nat) : List Nat :=
  let padLen := 136 - msg.length % 136
  if padLen = 1 then msg ++ [129]
  else msg ++ [1] ++ List.replicate (padLen - 2) 0 ++ [128]

/-- Eight little-endian bytes as one 64-bit lane. -/
def bytesToLane (bs : List Nat) : Nat :=
  bs.reverse.foldl (fun a b => a * 256 + b) 0

/-- A 64-bit lane as eight little-endian bytes. -/
def laneBytes (n : Nat) : List Nat :=
  (List.range 8).map (fun i => (n >>> (8 * i)) % 256)

/-- XOR one 136-byte block into the first 17 lanes, then permute. -/
def absorbBlock (st block : List Nat) : List Nat :=
  let lanes := (List.range 17).map (fun i => bytesToLane ((block.drop (8 * i)).take 8))
  keccakF ((List.range 25).map (fun i =>
    (st.getD i 0) ^^^ (if i < 17 then lanes.getD i 0 else 0)))

def absorbAux : Nat → List Nat → List Nat → List Nat
  | 0, st, _ => st
  | n + 1, st, msg => absorbAux n (absorbBlock st (msg.take 136)) (msg.drop 136)

/-- Keccak-256 of a byte sequence: 32 output bytes. -/
def keccak256 (msg : List Nat) : List Nat :=
  let padded := keccakPad msg
  let st := absorbAux (padded.length / 136) (List.replicate 25 0) padded
  ((st.take 4).map laneBytes).flatten

/-- UTF-8 bytes of an ASCII string (`str::as_bytes`; all signature strings
in this source are ASCII). -/
def strBytes (s : String) : List Nat := s.toList.map Char.toNat

/-! ## ABI values and single-token encoding (external `ethabi`) -/

/-- The `ethabi::Token` values this source produces or consumes. -/
inductive AbiToken where
  | uint : Nat → AbiToken
  | address : Nat → AbiToken
  | str : String → AbiToken
  | fixedBytes : List Nat → AbiToken
deriving DecidableEq

def AbiToken.into_uint : AbiToken → Option Nat
  | .uint n => some n
  | _ => none

def AbiToken.into_address : AbiToken → Option Nat
  | .address a => some a
  | _ => none

/-- `w` big-endian bytes of `n` (truncating to `n % 256 ^ w`). -/
def beBytes : Nat → Nat → List Nat
  | 0, _ => []
  | w + 1, n => beBytes w (n / 256) ++ [n % 256]

/-- Right-pad a byte sequence with zeros to a multiple of 32. -/
def pad32 (bs : List Nat) : List Nat :=
  bs ++ List.replicate ((32 - bs.length % 32) % 32) 0

/-- `ethabi::encode(&[token])` for a single token, the only arity the source
uses: one 32-byte head slot for static values; for the dynamic `String` case
an offset word (32), a length word, and the zero-padded data. -/
def encode1 : AbiToken → List Nat
  | .uint n => beBytes 32 n
  | .address a => beBytes 32 a
  | .fixedBytes bs => pad32 bs
  | .str s => beBytes 32 32 ++ beBytes 32 (strBytes s).length ++ pad32 (strBytes s)

/-! ## Data model and storage oracles -/

/-- `ethabi::Function`, restricted to what `calls.rs` reads: the name, the
canonical parameter-type strings (`p.kind.to_string()`), and the external
crate's `decode_input`, modelled as an oracle. -/
structure Function where
  name : String
  inputs : List String
  decode_input : List Nat → Option (List AbiToken)

/-- A fungible `TokenRecord` (external `zksync_types::Token`). -/
structure Token where
  id : Nat
  symbol : String
  decimals : Nat
  is_nft : Bool
deriving DecidableEq

/-- An `NFTRecord` (external `zksync_types::NFT`); `content_hash` is a list
of 32 bytes. -/
structure NFT where
  id : Nat
  creator_id : Nat
  creator_address : Nat
  serial_id : Nat
  content_hash : List Nat
deriving DecidableEq

/-- Modelled from the spec: the storage collaborator interface of §6
(`zksync_storage::StorageProcessor` together with `TokenDBCache`, code of
this repository that is not under `src/`).  Each query is an oracle that
either fails (`Except.error ()`, a data-layer failure) or returns a value;
theorems quantify over these oracles. -/
structure StorageProcessor where
  get_token : Nat → Except Unit (Option Token)
  get_nft_by_id : Nat → Except Unit (Option NFT)
  get_account_nft_balance : Nat → Except Unit Nat
  get_nft_owner : Nat → Except Unit Nat
  get_last_saved_block : Except Unit Nat
  get_account_balance_for_block : Nat → Nat → Nat → Except Unit Nat

/-- The jsonrpc error the dispatcher surfaces (`Error::internal_error()`). -/
inductive RpcErr where
  | internal
deriving DecidableEq

/-- Modelled from the spec: `converter::u256_from_biguint` (code of this
repository that is not under `src/`) converts an arbitrary-precision balance
to a 256-bit unsigned integer, "failing with an internal error if the value
exceeds the representable range". -/
def u256_from_biguint (n : Nat) : Except RpcErr Nat :=
  if n < 2 ^ 256 then .ok n else .error .internal

/-- `CallsHelper`: the two selector tables (as insertion-ordered association
lists; the `HashMap` lookup takes the last binding of a selector) and the
fixed proxy address. -/
structure CallsHelper where
  erc20 : List (List Nat × Function)
  zksync_proxy : List (List Nat × Function)
  zksync_proxy_address : Nat

/-- `HashMap::get` over the association-list model: the most recent binding
of the selector wins (later inserts overwrite earlier ones). -/
def hmGet (tbl : List (List Nat × Function)) (sel : List Nat) : Option Function :=
  (tbl.reverse.find? (fun p => p.1 == sel)).map Prod.snd

/-- `CallsHelper::gen_hashmap`: canonical signature string
`name(type1,type2,...)`, keccak-256, first 4 bytes as the key. -/
def gen_hashmap (functions : List Function) : List (List Nat × Function) :=
  functions.map (fun f =>
    ((keccak256 (strBytes (f.name ++ "(" ++ String.intercalate "," f.inputs ++ ")"))).take 4,
      f))

/-- `CallsHelper::get_nft`: ids above `u32::MAX` are "not found"; a storage
failure becomes an internal error. -/
def get_nft (st : StorageProcessor) (token_id : Nat) : Except RpcErr (Option NFT) :=
  if 4294967295 < token_id then .ok none
  else
    match st.get_nft_by_id token_id with
    | .error _ => .error .internal
    | .ok nft => .ok nft

/-! ## The call dispatcher (`CallsHelper::execute`) -/

/-- `CallsHelper::execute`.  `none` is a panic (`params[0]` on an empty list,
`unreachable!`, or the base-58 accumulator overflow inside `tokenURI`);
`some (.error .internal)` is the jsonrpc internal error; `some (.ok bytes)`
is a normal result, `[]` meaning "no emulation". -/
def execute (h : CallsHelper) (st : StorageProcessor) (toAddr : Nat) (data : List Nat) :
    Option (Except RpcErr (List Nat)) :=
  let allFunctionsE : Except RpcErr (Option (List (List Nat × Function))) :=
    if toAddr = h.zksync_proxy_address then .ok (some h.zksync_proxy)
    else
      match st.get_token toAddr with
      | .error _ => .error .internal
      | .ok (some token) => if !token.is_nft then .ok (some h.erc20) else .ok none
      | .ok none => .ok none
  match allFunctionsE with
  | .error e => some (.error e)
  | .ok none => some (.ok [])
  | .ok (some all_functions) =>
    if data.length < 4 then some (.ok [])
    else
      match hmGet all_functions (data.take 4) with
      | none => some (.ok [])
      | some function =>
        match function.decode_input (data.drop 4) with
        | none => some (.ok [])
        | some params =>
          if toAddr = h.zksync_proxy_address then
            match function.name with
            | "creatorId" =>
              match params.head? with
              | none => none
              | some p =>
                match p.into_uint with
                | none => some (.error .internal)
                | some token_id =>
                  match get_nft st token_id with
                  | .error e => some (.error e)
                  | .ok (some nft) => some (.ok (encode1 (.uint nft.creator_id)))
                  | .ok none => some (.ok [])
            | "creatorAddress" =>
              match params.head? with
              | none => none
              | some p =>
                match p.into_uint with
                | none => some (.error .internal)
                | some token_id =>
                  match get_nft st token_id with
                  | .error e => some (.error e)
                  | .ok (some nft) => some (.ok (encode1 (.address nft.creator_address)))
                  | .ok none => some (.ok [])
            | "serialId" =>
              match params.head? with
              | none => none
              | some p =>
                match p.into_uint with
                | none => some (.error .internal)
                | some token_id =>
                  match get_nft st token_id with
                  | .error e => some (.error e)
                  | .ok (some nft) => some (.ok (encode1 (.uint nft.serial_id)))
                  | .ok none => some (.ok [])
            | "contentHash" =>
              match params.head? with
              | none => none
              | some p =>
                match p.into_uint with
                | none => some (.error .internal)
                | some token_id =>
                  match get_nft st token_id with
                  | .error e => some (.error e)
                  | .ok (some nft) => some (.ok (encode1 (.fixedBytes nft.content_hash)))
                  | .ok none => some (.ok [])
            | "tokenURI" =>
              match params.head? with
              | none => none
              | some p =>
                match p.into_uint with
                | none => some (.error .internal)
                | some token_id =>
                  match get_nft st token_id with
                  | .error e => some (.error e)
                  | .ok (some nft) =>
                    match ipfs_cid nft.content_hash with
                    | none => none
                    | some cid => some (.ok (encode1 (.str ("ipfs://" ++ cid))))
                  | .ok none => some (.ok [])
            | "balanceOf" =>
              match params.head? with
              | none => none
              | some p =>
                match p.into_address with
                | none => some (.error .internal)
                | some address =>
                  match st.get_account_nft_balance address with
                  | .error _ => some (.error .internal)
                  | .ok balance => some (.ok (encode1 (.uint balance)))
            | "ownerOf" =>
              match params.head? with
              | none => none
              | some p =>
                match p.into_uint with
                | none => some (.error .internal)
                | some token_id =>
                  match get_nft st token_id with
                  | .error e => some (.error e)
                  | .ok (some nft) =>
                    match st.get_nft_owner nft.id with
                    | .error _ => some (.error .internal)
                    | .ok owner => some (.ok (encode1 (.address owner)))
                  | .ok none => some (.ok [])
            | "getApproved" =>
              match params.head? with
              | none => none
              | some p =>
                match p.into_uint with
                | none => some (.error .internal)
                | some token_id =>
                  match get_nft st token_id with
                  | .error e => some (.error e)
                  | .ok (some _) => some (.ok (encode1 (.address h.zksync_proxy_address)))
                  | .ok none => some (.ok [])
            | _ => none
          else
            match st.get_token toAddr with
            | .error _ => some (.error .internal)
            | .ok none => some (.error .internal)
            | .ok (some token) =>
              match function.name with
              | "name" => some (.ok (encode1 (.str token.symbol)))
              | "symbol" => some (.ok (encode1 (.str token.symbol)))
              | "decimals" => some (.ok (encode1 (.uint token.decimals)))
              | "totalSupply" => some (.ok (encode1 (.uint (2 ^ 256 - 1))))
              | "allowance" => some (.ok (encode1 (.uint (2 ^ 256 - 1))))
              | "balanceOf" =>
                match st.get_last_saved_block with
                | .error _ => some (.error .internal)
                | .ok block =>
                  match params.head? with
                  | none => none
                  | some p =>
                    match p.into_address with
                    | none => some (.error .internal)
                    | some address =>
                      match st.get_account_balance_for_block address block token.id with
                      | .error _ => some (.error .internal)
                      | .ok balance =>
                        match u256_from_biguint balance with
                        | .error e => some (.error e)
                        | .ok v => some (.ok (encode1 (.uint v)))
              | _ => none

/-! ## Lemmas: the base-58 accumulator -/

/-- All digit positions from `k` on are zero. -/
def ZeroFrom (k : Nat) (ds : List Nat) : Prop :=
  ∀ j, k ≤ j → ds.getD j 0 = 0

theorem leVal58_nil : leVal58 [] = 0 := rfl

theorem leVal58_cons (d : Nat) (ds : List Nat) :
    leVal58 (d :: ds) = d + 58 * leVal58 ds := rfl

theorem zeroFrom_cons_iff (k d : Nat) (ds : List Nat) :
    ZeroFrom (k + 1) (d :: ds) ↔ ZeroFrom k ds := by
  constructor
  · intro h j hj
    have := h (j + 1) (by omega)
    simpa using this
  · intro h j hj
    match j, hj with
    | j + 1, _ => simpa using h j (by omega)

theorem zeroFrom_zero_tail (d : Nat) (ds : List Nat) (h : ZeroFrom 0 (d :: ds)) :
    ZeroFrom 0 ds := by
  intro j _
  simpa using h (j + 1) (by omega)

theorem zeroFrom_leVal {ds : List Nat} (h : ZeroFrom 0 ds) : leVal58 ds = 0 := by
  induction ds with
  | nil => rfl
  | cons d rest ih =>
    have hd : d = 0 := by simpa using h 0 (by omega)
    rw [leVal58_cons, hd, ih (zeroFrom_zero_tail d rest h)]

theorem getD_set_ne (ds : List Nat) (i j v : Nat) (hij : i ≠ j) :
    (ds.set i v).getD j 0 = ds.getD j 0 := by
  induction ds generalizing i j with
  | nil => rfl
  | cons d rest ih =>
    match i, j with
    | 0, 0 => exact absurd rfl hij
    | 0, j + 1 => simp
    | i + 1, 0 => simp
    | i + 1, j + 1 => simpa using ih i j (by omega)

theorem leVal58_set (ds : List Nat) (i v : Nat) (hlen : i < ds.length)
    (hz : ds.getD i 0 = 0) :
    leVal58 (ds.set i v) = leVal58 ds + v * 58 ^ i := by
  induction ds generalizing i with
  | nil => simp at hlen
  | cons d rest ih =>
    match i with
    | 0 =>
      have hd : d = 0 := by simpa using hz
      simp only [List.set, leVal58_cons, hd, pow_zero]
      omega
    | i + 1 =>
      have := ih i (by simpa using hlen) (by simpa using hz)
      simp only [List.set, leVal58_cons, this, pow_succ]
      ring

theorem foldl_step_le (src : List Nat) (v : Nat) :
    v ≤ src.foldl (fun a b => a * 256 + b) v := by
  induction src generalizing v with
  | nil => exact Nat.le_refl v
  | cons b rest ih =>
    calc v ≤ v * 256 + b := by omega
    _ ≤ _ := ih (v * 256 + b)

/-- Full specification of the inner multiply-and-carry pass: the carry stays
a small `u32`, digits stay below 58, positions from `k` on stay zero, and the
digit value plus outgoing carry equals `carry + 256 ·` (old value). -/
theorem innerLoop_spec (k : Nat) (ds : List Nat) (carry : Nat)
    (hk : k ≤ ds.length) (hc : carry ≤ 256) (hd : ∀ d ∈ ds, d < 58)
    (hz : ZeroFrom k ds) :
    (innerLoop carry k ds).1 ≤ 256 ∧
    (innerLoop carry k ds).2.length = ds.length ∧
    (∀ d ∈ (innerLoop carry k ds).2, d < 58) ∧
    ZeroFrom k (innerLoop carry k ds).2 ∧
    leVal58 (innerLoop carry k ds).2 + (innerLoop carry k ds).1 * 58 ^ k
      = carry + 256 * leVal58 ds := by
  induction k generalizing ds carry with
  | zero =>
    refine ⟨hc, rfl, hd, hz, ?_⟩
    have h0 : leVal58 ds = 0 := zeroFrom_leVal hz
    simp [innerLoop, h0]
  | succ k ih =>
    match ds with
    | [] => simp at hk
    | d :: rest =>
      have hdlt : d < 58 := hd d (List.mem_cons_self d rest)
      have hsmall : carry + d * 256 < 2 ^ 32 := by omega
      have hcmod : (carry + d * 256) % 2 ^ 32 = carry + d * 256 :=
        Nat.mod_eq_of_lt hsmall
      have hdiv : (carry + d * 256) / 58 ≤ 256 := by omega
      have hrest := ih rest ((carry + d * 256) / 58) (by simpa using hk)
        hdiv (fun x hx => hd x (List.mem_cons_of_mem d hx))
        ((zeroFrom_cons_iff k d rest).mp hz)
      obtain ⟨h1, h2, h3, h4, h5⟩ := hrest
      have hmod58 : ((carry + d * 256) % 58) % 256 = (carry + d * 256) % 58 :=
        Nat.mod_eq_of_lt (by omega)
      simp only [innerLoop, hcmod, hmod58]
      refine ⟨h1, by simpa using h2, ?_, ?_, ?_⟩
      · intro x hx
        rcases List.mem_cons.mp hx with h | h
        · omega
        · exact h3 x h
      · exact (zeroFrom_cons_iff k _ _).mpr h4
      · rw [leVal58_cons]
        have hdm := Nat.div_add_mod (carry + d * 256) 58
        rw [leVal58_cons]
        calc (carry + d * 256) % 58 + 58 * leVal58 (innerLoop ((carry + d * 256) / 58) k rest).2
            + (innerLoop ((carry + d * 256) / 58) k rest).1 * 58 ^ (k + 1)
            = (carry + d * 256) % 58
              + 58 * (leVal58 (innerLoop ((carry + d * 256) / 58) k rest).2
                + (innerLoop ((carry + d * 256) / 58) k rest).1 * 58 ^ k) := by
              rw [pow_succ]; ring
        _ = (carry + d * 256) % 58 + 58 * ((carry + d * 256) / 58 + 256 * leVal58 rest) := by
              rw [h5]
        _ = carry + 256 * (d + 58 * leVal58 rest) := by omega

/-- The carry-extension pass, on success: appends the base-58 digits of the
carry at positions `len, len + 1, …`, adding `carry · 58 ^ len` to the value. -/
theorem whileLoopAux_spec (fuel : Nat) :
    ∀ (carry len : Nat) (ds : List Nat) (len' : Nat) (ds' : List Nat),
    carry ≤ fuel → len ≤ 46 → ds.length = 46 → (∀ d ∈ ds, d < 58) →
    ZeroFrom len ds → whileLoopAux fuel carry len ds = some (len', ds') →
    ds'.length = 46 ∧ (∀ d ∈ ds', d < 58) ∧ ZeroFrom len' ds' ∧
    len ≤ len' ∧ len' ≤ 46 ∧ leVal58 ds' = leVal58 ds + carry * 58 ^ len := by
  induction fuel with
  | zero =>
    intro carry len ds len' ds' hf hlen hds hd hz heq
    have hc0 : carry = 0 := by omega
    simp only [whileLoopAux, Option.some.injEq, Prod.mk.injEq] at heq
    obtain ⟨h1, h2⟩ := heq
    subst h1; subst h2
    exact ⟨hds, hd, hz, Nat.le_refl _, hlen, by simp [hc0]⟩
  | succ fuel ih =>
    intro carry len ds len' ds' hf hlen hds hd hz heq
    by_cases hc0 : carry = 0
    · subst hc0
      simp only [whileLoopAux, if_pos trivial, Option.some.injEq, Prod.mk.injEq] at heq
      obtain ⟨h1, h2⟩ := heq
      subst h1; subst h2
      exact ⟨hds, hd, hz, Nat.le_refl _, hlen, by simp⟩
    · by_cases h46 : 46 ≤ len
      · simp only [whileLoopAux, if_neg hc0, if_pos h46] at heq
        exact Option.noConfusion heq
      · have hlt : len < 46 := by omega
        have hmod : (carry % 58) % 256 = carry % 58 := Nat.mod_eq_of_lt (by omega)
        simp only [whileLoopAux, hc0, if_neg hc0, if_neg h46, hmod] at heq
        have hfuel : carry / 58 ≤ fuel := by
          have hlt2 : carry / 58 < carry :=
            Nat.div_lt_self (Nat.pos_of_ne_zero hc0) (by norm_num)
          omega
        have hset_len : (ds.set len (carry % 58)).length = 46 := by
          simpa using hds
        have hset_mem : ∀ d ∈ ds.set len (carry % 58), d < 58 := by
          intro x hx
          rcases List.mem_or_eq_of_mem_set hx with h | h
          · exact hd x h
          · omega
        have hset_zero : ZeroFrom (len + 1) (ds.set len (carry % 58)) := by
          intro j hj
          rw [getD_set_ne ds len j _ (by omega)]
          exact hz j (by omega)
        have := ih (carry / 58) (len + 1) _ len' ds' hfuel (by omega)
          hset_len hset_mem hset_zero heq
        obtain ⟨h1, h2, h3, h4, h5, h6⟩ := this
        refine ⟨h1, h2, h3, by omega, h5, ?_⟩
        rw [h6, leVal58_set ds len _ (by omega) (hz len (Nat.le_refl _))]
        have hdm := Nat.div_add_mod carry 58
        rw [pow_succ]
        calc leVal58 ds + carry % 58 * 58 ^ len + carry / 58 * (58 ^ len * 58)
            = leVal58 ds + (carry % 58 + 58 * (carry / 58)) * 58 ^ len := by ring
        _ = leVal58 ds + carry * 58 ^ len := by rw [Nat.add_comm (carry % 58)]; rw [hdm]

/-- The carry-extension pass succeeds whenever the carry fits in the
remaining `46 - len` digit positions. -/
theorem whileLoopAux_isSome (fuel : Nat) :
    ∀ (carry len : Nat) (ds : List Nat),
    carry ≤ fuel → len ≤ 46 → carry < 58 ^ (46 - len) →
    (whileLoopAux fuel carry len ds).isSome := by
  induction fuel with
  | zero =>
    intro carry len ds hf _ _
    have hc0 : carry = 0 := by omega
    simp [whileLoopAux, hc0]
  | succ fuel ih =>
    intro carry len ds hf hlen hbound
    by_cases hc0 : carry = 0
    · simp [whileLoopAux, hc0]
    · have hlt : len < 46 := by
        by_contra h
        have h46 : len = 46 := by omega
        rw [h46] at hbound
        simp at hbound
        omega
      have hfuel : carry / 58 ≤ fuel := by
        have hlt2 : carry / 58 < carry :=
          Nat.div_lt_self (Nat.pos_of_ne_zero hc0) (by norm_num)
        omega
      have hpow : carry / 58 < 58 ^ (46 - (len + 1)) := by
        have hsplit : 58 ^ (46 - len) = 58 * 58 ^ (46 - (len + 1)) := by
          have : 46 - len = (46 - (len + 1)) + 1 := by omega
          rw [this, pow_succ]
          ring
        rw [hsplit] at hbound
        exact Nat.div_lt_of_lt_mul (by omega)
      have := ih (carry / 58) (len + 1) (ds.set len ((carry % 58) % 256))
        hfuel (by omega) hpow
      simp only [whileLoopAux, if_neg hc0, if_neg (by omega : ¬ 46 ≤ len)]
      exact this

/-- Main invariant of `to_base58`'s outer loop, on success: digits stay
below 58 in a 46-entry array, and the accumulated base-58 value equals the
big-endian base-256 value of the bytes processed so far. -/
theorem b58Fold_spec (src : List Nat) :
    ∀ (len : Nat) (ds : List Nat) (len' : Nat) (ds' : List Nat),
    (∀ b ∈ src, b < 256) → ds.length = 46 → (∀ d ∈ ds, d < 58) →
    ZeroFrom len ds → len ≤ 46 → b58Fold src len ds = some (len', ds') →
    ds'.length = 46 ∧ (∀ d ∈ ds', d < 58) ∧ ZeroFrom len' ds' ∧ len' ≤ 46 ∧
    leVal58 ds' = src.foldl (fun a b => a * 256 + b) (leVal58 ds) := by
  induction src with
  | nil =>
    intro len ds len' ds' _ hds hd hz hlen heq
    simp only [b58Fold, Option.some.injEq, Prod.mk.injEq] at heq
    obtain ⟨h1, h2⟩ := heq
    subst h1; subst h2
    exact ⟨hds, hd, hz, hlen, rfl⟩
  | cons b rest ih =>
    intro len ds len' ds' hb hds hd hz hlen heq
    have hblt : b < 256 := hb b (List.mem_cons_self b rest)
    have hinner := innerLoop_spec len ds b (by omega) (by omega) hd hz
    obtain ⟨i1, i2, i3, i4, i5⟩ := hinner
    simp only [b58Fold] at heq
    rcases hw : whileLoop (innerLoop b len ds).1 len (innerLoop b len ds).2 with _ | p
    · rw [hw] at heq; simp at heq
    · rw [hw] at heq
      have hwhile := whileLoopAux_spec (innerLoop b len ds).1 (innerLoop b len ds).1
        len (innerLoop b len ds).2 p.1 p.2 (Nat.le_refl _) hlen (by omega) i3 i4
        (by simpa [whileLoop] using hw)
      obtain ⟨w1, w2, w3, w4, w5, w6⟩ := hwhile
      have hval : leVal58 p.2 = leVal58 ds * 256 + b := by
        rw [w6]
        omega
      have := ih p.1 p.2 len' ds'
        (fun x hx => hb x (List.mem_cons_of_mem b hx)) w1 w2 w3 w5 heq
      obtain ⟨f1, f2, f3, f4, f5⟩ := this
      refine ⟨f1, f2, f3, f4, ?_⟩
      rw [f5, hval]
      rfl

/-- The outer loop never hits the out-of-bounds panic as long as the full
value fits in 46 base-58 digits. -/
theorem b58Fold_isSome (src : List Nat) :
    ∀ (len : Nat) (ds : List Nat),
    (∀ b ∈ src, b < 256) → ds.length = 46 → (∀ d ∈ ds, d < 58) →
    ZeroFrom len ds → len ≤ 46 →
    src.foldl (fun a b => a * 256 + b) (leVal58 ds) < 58 ^ 46 →
    (b58Fold src len ds).isSome := by
  induction src with
  | nil => intro len ds _ _ _ _ _ _; simp [b58Fold]
  | cons b rest ih =>
    intro len ds hb hds hd hz hlen hbound
    have hblt : b < 256 := hb b (List.mem_cons_self b rest)
    have hinner := innerLoop_spec len ds b (by omega) (by omega) hd hz
    obtain ⟨i1, i2, i3, i4, i5⟩ := hinner
    have hnew : leVal58 (innerLoop b len ds).2 + (innerLoop b len ds).1 * 58 ^ len
        = leVal58 ds * 256 + b := by omega
    have hmono : leVal58 ds * 256 + b
        ≤ rest.foldl (fun a b => a * 256 + b) (leVal58 ds * 256 + b) :=
      foldl_step_le rest _
    have htot : leVal58 ds * 256 + b < 58 ^ 46 := by
      have : rest.foldl (fun a b => a * 256 + b) (leVal58 ds * 256 + b)
          = (b :: rest).foldl (fun a b => a * 256 + b) (leVal58 ds) := rfl
      omega
    have hcar : (innerLoop b len ds).1 < 58 ^ (46 - len) := by
      have hsplit : (58 : Nat) ^ 46 = 58 ^ len * 58 ^ (46 - len) := by
        rw [← pow_add]
        congr 1
        omega
      by_contra hcon
      push_neg at hcon
      have : 58 ^ len * 58 ^ (46 - len) ≤ (innerLoop b len ds).1 * 58 ^ len := by
        calc 58 ^ len * 58 ^ (46 - len) = 58 ^ (46 - len) * 58 ^ len := by ring
        _ ≤ (innerLoop b len ds).1 * 58 ^ len :=
          Nat.mul_le_mul_right _ hcon
      omega
    have hwsome := whileLoopAux_isSome (innerLoop b len ds).1 (innerLoop b len ds).1
      len (innerLoop b len ds).2 (Nat.le_refl _) hlen hcar
    rcases hw : whileLoop (innerLoop b len ds).1 len (innerLoop b len ds).2 with _ | p
    · rw [whileLoop] at hw
      rw [hw] at hwsome
      simp at hwsome
    · have hwhile := whileLoopAux_spec (innerLoop b len ds).1 (innerLoop b len ds).1
        len (innerLoop b len ds).2 p.1 p.2 (Nat.le_refl _) hlen (by omega) i3 i4
        (by simpa [whileLoop] using hw)
      obtain ⟨w1, w2, w3, w4, w5, w6⟩ := hwhile
      have hval : leVal58 p.2 = leVal58 ds * 256 + b := by omega
      have hrest := ih p.1 p.2 (fun x hx => hb x (List.mem_cons_of_mem b hx))
        w1 w2 w3 w5 (by rw [hval]; exact hbound)
      simp only [b58Fold, hw]
      exact hrest

/-! ## Lemmas: `to_base58` end to end -/

theorem getD_replicate (n j : Nat) : (List.replicate n (0 : Nat)).getD j 0 = 0 := by
  induction n generalizing j with
  | zero => rfl
  | succ n ih =>
    match j with
    | 0 => rfl
    | j + 1 => exact ih j

/-- Whatever `to_base58` returns was produced by a successful fold whose
digit value is the big-endian value of the input. -/
theorem to_base58_some_spec (s : List Nat) (str : String)
    (hb : ∀ b ∈ s, b < 256) (h : to_base58 s = some str) :
    ∃ len ds, b58Fold s 1 (List.replicate 46 0) = some (len, ds) ∧
      ds.length = 46 ∧ (∀ d ∈ ds, d < 58) ∧ ZeroFrom len ds ∧ len ≤ 46 ∧
      leVal58 ds = beVal s ∧ str = to_alphabet ds.reverse := by
  rcases heq : b58Fold s 1 (List.replicate 46 0) with _ | p
  · rw [to_base58, heq] at h
    exact Option.noConfusion h
  · obtain ⟨len1, ds1⟩ := p
    rw [to_base58, heq] at h
    have hspec := b58Fold_spec s 1 (List.replicate 46 0) len1 ds1 hb
      (by simp) (fun x hx => by rw [List.eq_of_mem_replicate hx]; omega)
      (fun j _ => getD_replicate 46 j) (by omega) heq
    obtain ⟨h1, h2, h3, h4, h5⟩ := hspec
    refine ⟨len1, ds1, rfl, h1, h2, h3, h4, ?_, ?_⟩
    · rw [h5]
      have : leVal58 (List.replicate 46 0) = 0 := by decide
      rw [this]
      rfl
    · simpa using h.symm

/-- The encoder succeeds whenever the value fits in 46 base-58 digits. -/
theorem to_base58_total (s : List Nat) (hb : ∀ b ∈ s, b < 256)
    (hbound : beVal s < 58 ^ 46) : ∃ str, to_base58 s = some str := by
  have hsome := b58Fold_isSome s 1 (List.replicate 46 0) hb (by simp)
    (fun x hx => by rw [List.eq_of_mem_replicate hx]; omega)
    (fun j _ => getD_replicate 46 j) (by omega)
    (by
      have : leVal58 (List.replicate 46 0) = 0 := by decide
      rw [this]
      exact hbound)
  rcases heq : b58Fold s 1 (List.replicate 46 0) with _ | p
  · rw [heq] at hsome
    simp at hsome
  · exact ⟨to_alphabet p.2.reverse, by rw [to_base58, heq]⟩

/-- Upper bound on the running big-endian value in terms of the byte count. -/
theorem foldl_step_lt (s : List Nat) :
    ∀ v, (∀ b ∈ s, b < 256) →
      s.foldl (fun a b => a * 256 + b) v < (v + 1) * 256 ^ s.length := by
  induction s with
  | nil => intro v _; simp only [List.foldl_nil, List.length_nil, pow_zero, Nat.mul_one]; omega
  | cons b rest ih =>
    intro v hb
    have hblt : b < 256 := hb b (List.mem_cons_self b rest)
    have h1 := ih (v * 256 + b) (fun x hx => hb x (List.mem_cons_of_mem b hx))
    calc (b :: rest).foldl (fun a b => a * 256 + b) v
        = rest.foldl (fun a b => a * 256 + b) (v * 256 + b) := rfl
    _ < (v * 256 + b + 1) * 256 ^ rest.length := h1
    _ ≤ ((v + 1) * 256) * 256 ^ rest.length :=
        Nat.mul_le_mul_right _ (by omega)
    _ = (v + 1) * 256 ^ (rest.length + 1) := by rw [pow_succ]; ring
    _ = (v + 1) * 256 ^ (b :: rest).length := by rw [List.length_cons]

theorem beVal_lt (s : List Nat) (hb : ∀ b ∈ s, b < 256) :
    beVal s < 256 ^ s.length := by
  have := foldl_step_lt s 0 hb
  simpa [beVal] using this

/-! ## Lemmas: alphabet rendering and decoding -/

theorem alpha_findIdx_getD :
    ∀ d, d < 58 → alphaChars.findIdx (fun x => x == alphaChars.getD d 'A') = d := by
  decide

theorem toList_to_alphabet (l : List Nat) :
    (to_alphabet l).toList = l.map (fun i => alphaChars.getD i 'A') := rfl

theorem foldr_decode (ds : List Nat) (hd : ∀ d ∈ ds, d < 58) :
    ds.foldr
      (fun d a => 58 * a + alphaChars.findIdx (fun x => x == alphaChars.getD d 'A'))
      0 = leVal58 ds := by
  induction ds with
  | nil => rfl
  | cons d rest ih =>
    have hdlt : d < 58 := hd d (List.mem_cons_self d rest)
    have := ih (fun x hx => hd x (List.mem_cons_of_mem d hx))
    simp only [List.foldr_cons, this, leVal58_cons, alpha_findIdx_getD d hdlt]
    omega

/-- Reading the rendered digits back as base-58 recovers the digit value. -/
theorem decodeB58_to_alphabet (ds : List Nat) (hd : ∀ d ∈ ds, d < 58) :
    decodeB58 (to_alphabet ds.reverse) = leVal58 ds := by
  rw [decodeB58, toList_to_alphabet, List.foldl_map, List.foldl_reverse]
  exact foldr_decode ds hd

/-! ## Lemmas: minimal byte representation -/

theorem bytesOfNatAux_zero (fuel : Nat) : bytesOfNatAux fuel 0 = [] := by
  cases fuel <;> simp [bytesOfNatAux]

theorem bytesOfNatAux_fuel (f1 : Nat) :
    ∀ f2 n, n ≤ f1 → n ≤ f2 → bytesOfNatAux f1 n = bytesOfNatAux f2 n := by
  induction f1 with
  | zero =>
    intro f2 n h1 _
    have : n = 0 := by omega
    rw [this, bytesOfNatAux_zero, bytesOfNatAux_zero]
  | succ f1 ih =>
    intro f2 n h1 h2
    by_cases hn : n = 0
    · rw [hn, bytesOfNatAux_zero, bytesOfNatAux_zero]
    · cases f2 with
      | zero => omega
      | succ f2 =>
        have hdiv : n / 256 < n := Nat.div_lt_self (Nat.pos_of_ne_zero hn) (by norm_num)
        simp only [bytesOfNatAux, if_neg hn]
        rw [ih f2 (n / 256) (by omega) (by omega)]

theorem beVal_append_one (l : List Nat) (b : Nat) :
    beVal (l ++ [b]) = beVal l * 256 + b := by
  simp [beVal, List.foldl_append]

theorem beVal_pos (l : List Nat) (h0 : l.headD 0 ≠ 0) : 0 < beVal l := by
  match l with
  | [] => simp at h0
  | h :: t =>
    have : beVal (h :: t) = t.foldl (fun a b => a * 256 + b) h := by
      simp [beVal]
    rw [this]
    have := foldl_step_le t h
    have hh : h ≠ 0 := by simpa using h0
    omega

/-- Recovering the bytes of a big-endian value: exact for sequences whose
first byte is nonzero. -/
theorem bytesOfNat_beVal (s : List Nat) (h0 : s.headD 0 ≠ 0)
    (hb : ∀ x ∈ s, x < 256) : bytesOfNat (beVal s) = s := by
  induction s using List.reverseRecOn with
  | nil => simp at h0
  | append_singleton l b ih =>
    have hblt : b < 256 := hb b (by simp)
    by_cases hl : l = []
    · subst hl
      simp only [List.nil_append] at h0 ⊢
      have hbne : b ≠ 0 := by simpa using h0
      have hbv : beVal [b] = b := by simp [beVal]
      rw [hbv]
      match b, hbne with
      | m + 1, _ =>
        show bytesOfNatAux (m + 1) (m + 1) = [m + 1]
        simp only [bytesOfNatAux, if_neg (Nat.succ_ne_zero m)]
        rw [Nat.div_eq_of_lt hblt, Nat.mod_eq_of_lt hblt, bytesOfNatAux_zero]
        rfl
    · have hhead : l.headD 0 ≠ 0 := by
        match l, hl with
        | a :: t, _ => simpa using h0
      have hbl : ∀ x ∈ l, x < 256 := fun x hx => hb x (by simp [hx])
      have ihl := ih hhead hbl
      have hpos : 0 < beVal l := beVal_pos l hhead
      rw [beVal_append_one]
      have hn : 0 < beVal l * 256 + b := by omega
      match hm : beVal l * 256 + b, hn with
      | m + 1, _ =>
        show bytesOfNatAux (m + 1) (m + 1) = l ++ [b]
        simp only [bytesOfNatAux, if_neg (Nat.succ_ne_zero m)]
        have hdiv : (m + 1) / 256 = beVal l := by omega
        have hmod : (m + 1) % 256 = b := by omega
        rw [hdiv, hmod]
        have hfuel : bytesOfNatAux m (beVal l) = bytesOfNatAux (beVal l) (beVal l) :=
          bytesOfNatAux_fuel m (beVal l) (beVal l) (by omega) (Nat.le_refl _)
        rw [hfuel]
        rw [show bytesOfNatAux (beVal l) (beVal l) = bytesOfNat (beVal l) from rfl, ihl]

/-! ## Lemmas: non-significant digit positions render as the first
alphabet character -/

theorem leVal58_getD_le (ds : List Nat) :
    ∀ j, 58 ^ j * ds.getD j 0 ≤ leVal58 ds := by
  induction ds with
  | nil => intro j; simp
  | cons d rest ih =>
    intro j
    match j with
    | 0 => simp [leVal58_cons]
    | j + 1 =>
      have := ih j
      simp only [List.getD_cons_succ, leVal58_cons, pow_succ]
      calc 58 ^ j * 58 * rest.getD j 0 = 58 * (58 ^ j * rest.getD j 0) := by ring
      _ ≤ 58 * leVal58 rest := by omega
      _ ≤ d + 58 * leVal58 rest := by omega

theorem zeroFrom_of_lt_pow (ds : List Nat) (k : Nat)
    (h : leVal58 ds < 58 ^ k) : ZeroFrom k ds := by
  intro j hj
  by_contra hne
  have h1 : 1 ≤ ds.getD j 0 := Nat.pos_of_ne_zero hne
  have h2 : 58 ^ j ≤ 58 ^ j * ds.getD j 0 := Nat.le_mul_of_pos_right _ h1
  have h3 := leVal58_getD_le ds j
  have h4 : (58 : Nat) ^ k ≤ 58 ^ j := Nat.pow_le_pow_right (by norm_num) hj
  omega

theorem zeroFrom_drop_eq_replicate (ds : List Nat) :
    ∀ k, ZeroFrom k ds → ds.drop k = List.replicate (ds.length - k) 0 := by
  induction ds with
  | nil => intro k _; simp
  | cons d rest ih =>
    intro k hz
    match k with
    | 0 =>
      have hd0 : d = 0 := by simpa using hz 0 (by omega)
      have hrest := ih 0 (zeroFrom_zero_tail d rest hz)
      subst hd0
      simp only [List.drop_zero, Nat.sub_zero, List.length_cons,
        List.replicate_succ] at hrest ⊢
      exact congrArg (fun t => 0 :: t) hrest
    | k + 1 =>
      have := ih k ((zeroFrom_cons_iff k d rest).mp hz)
      simpa using this

theorem reverse_take_zeros (ds : List Nat) (k : Nat) (hlen : ds.length = 46)
    (hz : ZeroFrom k ds) :
    ds.reverse.take (46 - k) = List.replicate (46 - k) 0 := by
  have hdrop : ds.drop k = List.replicate (46 - k) 0 := by
    rw [zeroFrom_drop_eq_replicate ds k hz, hlen]
  conv_lhs => rw [← List.take_append_drop k ds]
  rw [List.reverse_append, hdrop, List.reverse_replicate]
  rw [List.take_left' (by simp)]

/-- Bound on the 34-byte CID preimages: they always fit in 46 base-58
digits. -/
theorem beVal_header_lt (H : List Nat) (hlen : H.length = 32)
    (hb : ∀ b ∈ H, b < 256) : beVal (SHA256_MULTI_HASH ++ H) < 58 ^ 46 := by
  have h1 : beVal (SHA256_MULTI_HASH ++ H)
      = H.foldl (fun a b => a * 256 + b) 4640 := by
    rw [beVal, SHA256_MULTI_HASH, List.foldl_append]
    rfl
  have h2 := foldl_step_lt H 4640 hb
  rw [hlen] at h2
  have h3 : (4640 + 1) * 256 ^ 32 < 58 ^ 46 := by decide
  omega

theorem header_bytes_lt (H : List Nat) (hb : ∀ b ∈ H, b < 256) :
    ∀ b ∈ SHA256_MULTI_HASH ++ H, b < 256 := by
  intro b hmem
  rcases List.mem_append.mp hmem with h | h
  · simp only [SHA256_MULTI_HASH, List.mem_cons, List.mem_singleton,
      List.not_mem_nil, or_false] at h
    rcases h with h | h <;> omega
  · exact hb b h

/-! ## Claim theorems: the base-58 codec -/

/-- C4: for every 34-byte input `{0x12, 0x20} ++ H` with `H` of 32 bytes,
the digit-by-digit pass of `to_base58` stays within the fixed 46-entry
accumulator (final digit count `≤ 46`, every write in bounds) and the
encoder returns a result instead of panicking. -/
theorem ipfs_cid_no_panic (H : List Nat) (hlen : H.length = 32)
    (hb : ∀ b ∈ H, b < 256) :
    ∃ len ds, b58Fold (SHA256_MULTI_HASH ++ H) 1 (List.replicate 46 0) = some (len, ds) ∧
      len ≤ 46 ∧ ipfs_cid H = some (to_alphabet ds.reverse) := by
  have hbytes := header_bytes_lt H hb
  obtain ⟨str, hstr⟩ :=
    to_base58_total (SHA256_MULTI_HASH ++ H) hbytes (beVal_header_lt H hlen hb)
  obtain ⟨len, ds, hfold, hds, hdig, hzf, hlen46, hval, hrender⟩ :=
    to_base58_some_spec (SHA256_MULTI_HASH ++ H) str hbytes hstr
  refine ⟨len, ds, hfold, hlen46, ?_⟩
  rw [ipfs_cid, hstr, hrender]

/-- C4 witness: the all-zeros 32-byte digest has a computable CID. -/
theorem ipfs_cid_no_panic_witness :
    (List.replicate 32 0).length = 32 ∧
    ∃ len ds, b58Fold (SHA256_MULTI_HASH ++ List.replicate 32 0) 1
        (List.replicate 46 0) = some (len, ds) ∧
      len ≤ 46 ∧ ipfs_cid (List.replicate 32 0) = some (to_alphabet ds.reverse) :=
  ⟨by decide,
    ipfs_cid_no_panic (List.replicate 32 0) (by decide)
      (fun b hb => by rw [List.eq_of_mem_replicate hb]; omega)⟩

/-- C10: whenever the input value fits the accumulator, the encoder emits
exactly 46 characters — the whole reversed digit array — and every position
left of the significant digits is the alphabet's first character `'1'`
(with `k = 0`: an all-zero value renders as 46 `'1'`s). -/
theorem to_base58_length46 (s : List Nat) (k : Nat) (hb : ∀ b ∈ s, b < 256)
    (hk : k ≤ 46) (hv : beVal s < 58 ^ k) :
    ∃ str, to_base58 s = some str ∧ str.length = 46 ∧
      ∀ c ∈ str.toList.take (46 - k), c = '1' := by
  have hv46 : beVal s < 58 ^ 46 :=
    lt_of_lt_of_le hv (Nat.pow_le_pow_right (by norm_num) hk)
  obtain ⟨str, hstr⟩ := to_base58_total s hb hv46
  obtain ⟨len, ds, hfold, hds, hdig, hzf, hlen46, hval, hrender⟩ :=
    to_base58_some_spec s str hb hstr
  refine ⟨str, hstr, ?_, ?_⟩
  · rw [hrender]
    show (ds.reverse.map (fun i => alphaChars.getD i 'A')).length = 46
    simp [hds]
  · intro c hc
    rw [hrender, toList_to_alphabet, ← List.map_take] at hc
    have hzero : ds.reverse.take (46 - k) = List.replicate (46 - k) 0 :=
      reverse_take_zeros ds k hds
        (zeroFrom_of_lt_pow ds k (by rw [hval]; exact hv))
    rw [hzero, List.map_replicate] at hc
    have hct : c = alphaChars.getD 0 'A' := List.eq_of_mem_replicate hc
    rw [hct]
    rfl

/-- C10 witness: the all-zero two-byte input yields the 46-character
all-`'1'` string. -/
theorem to_base58_length46_witness :
    beVal [0, 0] < 58 ^ 0 ∧
    ∃ str, to_base58 [0, 0] = some str ∧ str.length = 46 ∧
      ∀ c ∈ str.toList.take (46 - 0), c = '1' :=
  ⟨by decide, to_base58_length46 [0, 0] 0 (by decide) (by decide) (by decide)⟩

/-- C3 counterexample: encode-then-decode does not recover `[0x00, 0x00]`
(the decoded integer `0` has the empty minimal byte representation, so the
two leading zero bytes are lost). -/
theorem base58_roundTrip_cex :
    (to_base58 [0, 0]).map (fun str => bytesOfNat (decodeB58 str)) ≠ some [0, 0] := by
  decide

/-- C3 (amended): for every byte sequence whose first byte is nonzero, if
the encoder returns a string (it does whenever the value fits 46 base-58
digits), reading the string back as base-58 digits of a big-endian integer
and taking that integer's bytes recovers the input exactly. -/
theorem base58_roundTrip (s : List Nat) (str : String) (hb : ∀ b ∈ s, b < 256)
    (h0 : s.headD 0 ≠ 0) (henc : to_base58 s = some str) :
    bytesOfNat (decodeB58 str) = s := by
  obtain ⟨len, ds, hfold, hds, hdig, hzf, hlen46, hval, hrender⟩ :=
    to_base58_some_spec s str hb henc
  rw [hrender, decodeB58_to_alphabet ds hdig, hval]
  exact bytesOfNat_beVal s h0 hb

/-- C3 witness: round trip on `[0x01, 0x00]`. -/
theorem base58_roundTrip_witness :
    to_base58 [1, 0] = some "111111111111111111111111111111111111111111115R" ∧
    bytesOfNat (decodeB58 "111111111111111111111111111111111111111111115R") = [1, 0] :=
  ⟨by decide,
    base58_roundTrip [1, 0] "111111111111111111111111111111111111111111115R"
      (by decide) (by decide) (by decide)⟩

/-! ## Concrete fixtures for witnesses and counterexamples -/

deriving instance DecidableEq for Except

def tok7 : Token := { id := 9, symbol := "TKN", decimals := 18, is_nft := false }

def nft5 : NFT :=
  { id := 5, creator_id := 2, creator_address := 3, serial_id := 4,
    content_hash := List.replicate 32 7 }

def fTotalSupply : Function :=
  { name := "totalSupply", inputs := [], decode_input := fun _ => some [] }

def fBalanceOf : Function :=
  { name := "balanceOf", inputs := ["address"],
    decode_input := fun _ => some [.address 21] }

def fTokenURI : Function :=
  { name := "tokenURI", inputs := ["uint256"],
    decode_input := fun _ => some [.uint 5] }

def fOwnerOf : Function :=
  { name := "ownerOf", inputs := ["uint256"],
    decode_input := fun _ => some [.uint (2 ^ 32)] }

def fNoDecode : Function :=
  { name := "totalSupply", inputs := [], decode_input := fun _ => none }

def helperW : CallsHelper :=
  { erc20 := [([1, 1, 1, 1], fTotalSupply), ([2, 2, 2, 2], fBalanceOf)],
    zksync_proxy := [([3, 3, 3, 3], fTokenURI), ([4, 4, 4, 4], fOwnerOf),
      ([5, 5, 5, 5], fNoDecode)],
    zksync_proxy_address := 99 }

def stOk : StorageProcessor :=
  { get_token := fun a => if a = 7 then .ok (some tok7) else .ok none,
    get_nft_by_id := fun i => if i = 5 then .ok (some nft5) else .ok none,
    get_account_nft_balance := fun _ => .ok 3,
    get_nft_owner := fun _ => .ok 77,
    get_last_saved_block := .ok 11,
    get_account_balance_for_block := fun _ _ _ => .ok 42 }

def stErr : StorageProcessor :=
  { get_token := fun _ => .error (),
    get_nft_by_id := fun _ => .error (),
    get_account_nft_balance := fun _ => .error (),
    get_nft_owner := fun _ => .error (),
    get_last_saved_block := .error (),
    get_account_balance_for_block := fun _ _ _ => .error () }

/-! ## Claim theorems: the call dispatcher -/

/-- C5 counterexample: with a destination whose token-record lookup fails, a
payload shorter than 4 bytes produces an internal error, not the empty
result — the dispatcher routes by destination before examining the payload
length. -/
theorem short_payload_cex :
    execute helperW stErr 0 [] = some (.error RpcErr.internal) ∧
    execute helperW stErr 0 [] ≠ some (.ok []) := by
  decide

/-- C5 (amended): for the proxy address unconditionally, and for every
other destination whose token lookup does not fail, a payload of fewer
than 4 bytes yields the empty result, not an error. -/
theorem short_payload_empty (h : CallsHelper) (st : StorageProcessor)
    (toAddr : Nat) (data : List Nat) (hshort : data.length < 4)
    (hok : toAddr = h.zksync_proxy_address ∨ st.get_token toAddr ≠ .error ()) :
    execute h st toAddr data = some (.ok []) := by
  by_cases hto : toAddr = h.zksync_proxy_address
  · simp only [execute, if_pos hto, if_pos hshort]
  · rcases hok with hok | hok
    · exact absurd hok hto
    · rcases htok : st.get_token toAddr with e | otok
      · cases e
        exact absurd htok hok
      · rcases otok with _ | tok
        · simp only [execute, if_neg hto, htok]
        · rcases hnft : tok.is_nft with _ | _
          · simp only [execute, if_neg hto, htok, hnft, Bool.not_false,
              if_pos trivial, if_pos hshort]
          · simp [execute, if_neg hto, htok, hnft]

/-- C5 witness: at the proxy address even a failing token oracle yields the
empty result for a short payload — the lookup is never consulted there. -/
theorem short_payload_empty_witness :
    [1, 2].length < 4 ∧ (99 : Nat) = helperW.zksync_proxy_address ∧
    execute helperW stErr 99 [1, 2] = some (.ok []) :=
  ⟨by decide, rfl,
    short_payload_empty helperW stErr 99 [1, 2] (by decide) (Or.inl rfl)⟩

/-- C9: when the selected table does contain the payload's selector but the
remaining bytes fail to decode against the function's parameter types, the
result is the empty byte sequence — never an internal error. -/
theorem decode_failure_empty (h : CallsHelper) (st : StorageProcessor)
    (toAddr : Nat) (data : List Nat) (f : Function)
    (hlen : ¬ data.length < 4)
    (hroute :
      toAddr = h.zksync_proxy_address ∧ hmGet h.zksync_proxy (data.take 4) = some f
      ∨ toAddr ≠ h.zksync_proxy_address ∧
        (∃ tok, st.get_token toAddr = .ok (some tok) ∧ tok.is_nft = false) ∧
        hmGet h.erc20 (data.take 4) = some f)
    (hdec : f.decode_input (data.drop 4) = none) :
    execute h st toAddr data = some (.ok []) := by
  rcases hroute with ⟨hto, hsel⟩ | ⟨hto, ⟨tok, htok, hnft⟩, hsel⟩
  · simp only [execute, if_pos hto, if_neg hlen, hsel, hdec]
  · simp only [execute, if_neg hto, htok, hnft, Bool.not_false, if_pos trivial,
      if_neg hlen, hsel, hdec]

/-- C9 witness. -/
theorem decode_failure_empty_witness :
    hmGet helperW.zksync_proxy ([5, 5, 5, 5].take 4) = some fNoDecode ∧
    fNoDecode.decode_input ([5, 5, 5, 5].drop 4) = none ∧
    execute helperW stOk 99 [5, 5, 5, 5] = some (.ok []) :=
  ⟨rfl, rfl,
    decode_failure_empty helperW stOk 99 [5, 5, 5, 5] fNoDecode (by decide)
      (Or.inl ⟨rfl, rfl⟩) rfl⟩

/-- C6: `totalSupply` and `allowance` on a fungible destination return the
ABI encoding of the maximal representable uint256, independent of the
decoded argument values and of every balance oracle. -/
theorem totalSupply_allowance_max (h : CallsHelper) (st : StorageProcessor)
    (toAddr : Nat) (data : List Nat) (f : Function) (tok : Token)
    (params : List AbiToken)
    (hto : toAddr ≠ h.zksync_proxy_address)
    (htok : st.get_token toAddr = .ok (some tok))
    (hnft : tok.is_nft = false)
    (hlen : ¬ data.length < 4)
    (hsel : hmGet h.erc20 (data.take 4) = some f)
    (hname : f.name = "totalSupply" ∨ f.name = "allowance")
    (hdec : f.decode_input (data.drop 4) = some params) :
    execute h st toAddr data = some (.ok (encode1 (.uint (2 ^ 256 - 1)))) ∧
    encode1 (.uint (2 ^ 256 - 1)) = List.replicate 32 255 := by
  constructor
  · rcases hname with hname | hname <;>
      simp only [execute, if_neg hto, htok, hnft, Bool.not_false, if_pos trivial,
        if_neg hlen, hsel, hdec, hname]
  · decide

/-- C6 witness. -/
theorem totalSupply_allowance_max_witness :
    stOk.get_token 7 = .ok (some tok7) ∧ tok7.is_nft = false ∧
    hmGet helperW.erc20 ([1, 1, 1, 1].take 4) = some fTotalSupply ∧
    execute helperW stOk 7 [1, 1, 1, 1] = some (.ok (encode1 (.uint (2 ^ 256 - 1)))) :=
  ⟨rfl, rfl, rfl,
    (totalSupply_allowance_max helperW stOk 7 [1, 1, 1, 1] fTotalSupply tok7 []
      (by decide) rfl rfl (by decide) rfl (Or.inl rfl) rfl).1⟩

/-- C7: the fungible `balanceOf` handler first resolves the last saved block,
then queries the account's balance of this token at exactly that block, and
converts it to uint256, surfacing an internal error (never an empty result)
when the balance does not fit in 256 bits. -/
theorem erc20_balanceOf_spec (h : CallsHelper) (st : StorageProcessor)
    (toAddr : Nat) (data : List Nat) (f : Function) (tok : Token) (a : Nat)
    (hto : toAddr ≠ h.zksync_proxy_address)
    (htok : st.get_token toAddr = .ok (some tok))
    (hnft : tok.is_nft = false)
    (hlen : ¬ data.length < 4)
    (hsel : hmGet h.erc20 (data.take 4) = some f)
    (hname : f.name = "balanceOf")
    (hdec : f.decode_input (data.drop 4) = some [AbiToken.address a]) :
    (st.get_last_saved_block = .error () →
      execute h st toAddr data = some (.error .internal)) ∧
    ∀ blk, st.get_last_saved_block = .ok blk →
      (st.get_account_balance_for_block a blk tok.id = .error () →
        execute h st toAddr data = some (.error .internal)) ∧
      ∀ bal, st.get_account_balance_for_block a blk tok.id = .ok bal →
        (bal < 2 ^ 256 →
          execute h st toAddr data = some (.ok (encode1 (.uint bal)))) ∧
        (2 ^ 256 ≤ bal →
          execute h st toAddr data = some (.error .internal)) := by
  refine ⟨?_, ?_⟩
  · intro hblk
    simp only [execute, if_neg hto, htok, hnft, Bool.not_false, if_pos trivial,
      if_neg hlen, hsel, hdec, hname, hblk]
  · intro blk hblk
    refine ⟨?_, ?_⟩
    · intro hbal
      simp only [execute, if_neg hto, htok, hnft, Bool.not_false, if_pos trivial,
        if_neg hlen, hsel, hdec, hname, hblk, List.head?_cons,
        AbiToken.into_address, hbal]
    · intro bal hbal
      refine ⟨?_, ?_⟩
      · intro hlt
        simp only [execute, if_neg hto, htok, hnft, Bool.not_false, if_pos trivial,
          if_neg hlen, hsel, hdec, hname, hblk, List.head?_cons,
          AbiToken.into_address, hbal, u256_from_biguint, if_pos hlt]
      · intro hge
        simp only [execute, if_neg hto, htok, hnft, Bool.not_false, if_pos trivial,
          if_neg hlen, hsel, hdec, hname, hblk, List.head?_cons,
          AbiToken.into_address, hbal, u256_from_biguint,
          if_neg (by omega : ¬ bal < 2 ^ 256)]

/-- C7 witness. -/
theorem erc20_balanceOf_witness :
    stOk.get_last_saved_block = .ok 11 ∧
    stOk.get_account_balance_for_block 21 11 tok7.id = .ok 42 ∧
    execute helperW stOk 7 [2, 2, 2, 2] = some (.ok (encode1 (.uint 42))) :=
  ⟨rfl, rfl,
    ((((erc20_balanceOf_spec helperW stOk 7 [2, 2, 2, 2] fBalanceOf tok7 21
      (by decide) rfl rfl (by decide) rfl rfl rfl).2 11 rfl).2 42 rfl).1
      (by norm_num))⟩

/-- C8: every proxy NFT-lookup function (`ownerOf`, `creatorId`,
`creatorAddress`, `serialId`, `contentHash`, `tokenURI`, `getApproved`)
treats a token id above the 32-bit range as "not found" and returns the
empty result, not an error. -/
theorem nft_id_out_of_range_empty (h : CallsHelper) (st : StorageProcessor)
    (data : List Nat) (f : Function) (params : List AbiToken) (tid : Nat)
    (hlen : ¬ data.length < 4)
    (hsel : hmGet h.zksync_proxy (data.take 4) = some f)
    (hname : f.name ∈ ["creatorId", "creatorAddress", "serialId", "contentHash",
      "tokenURI", "ownerOf", "getApproved"])
    (hdec : f.decode_input (data.drop 4) = some params)
    (hhead : params.head? = some (.uint tid))
    (hrange : 4294967295 < tid) :
    execute h st h.zksync_proxy_address data = some (.ok []) := by
  have hget : get_nft st tid = .ok none := by
    rw [get_nft, if_pos hrange]
  simp only [List.mem_cons, List.mem_singleton, List.not_mem_nil, or_false] at hname
  rcases hname with hn | hn | hn | hn | hn | hn | hn <;>
    simp only [execute, if_pos rfl, if_pos trivial, if_neg hlen, hsel, hdec, hn,
      hhead, AbiToken.into_uint, hget]

/-- C8 witness. -/
theorem nft_id_out_of_range_empty_witness :
    fOwnerOf.decode_input ([4, 4, 4, 4].drop 4) = some [.uint (2 ^ 32)] ∧
    4294967295 < 2 ^ 32 ∧
    execute helperW stOk helperW.zksync_proxy_address [4, 4, 4, 4] = some (.ok []) :=
  ⟨rfl, by decide,
    nft_id_out_of_range_empty helperW stOk [4, 4, 4, 4] fOwnerOf
      [.uint (2 ^ 32)] (2 ^ 32) (by decide) rfl (by decide) rfl rfl (by decide)⟩

/-- C1: proxy `tokenURI` on an existing NFT with 32-byte content hash `H`
returns the ABI-encoded string `"ipfs://" ++ Base58({0x12, 0x20} ++ H)`,
`Base58` being this system's codec `to_base58`; for a token id with no NFT
it returns the empty byte sequence. -/
theorem tokenURI_spec (h : CallsHelper) (st : StorageProcessor)
    (data : List Nat) (f : Function) (params : List AbiToken) (tid : Nat) (nft : NFT)
    (hlen : ¬ data.length < 4)
    (hsel : hmGet h.zksync_proxy (data.take 4) = some f)
    (hname : f.name = "tokenURI")
    (hdec : f.decode_input (data.drop 4) = some params)
    (hhead : params.head? = some (.uint tid))
    (hrange : tid ≤ 4294967295)
    (hhash_len : nft.content_hash.length = 32)
    (hhash_bytes : ∀ b ∈ nft.content_hash, b < 256) :
    (st.get_nft_by_id tid = .ok (some nft) →
      ∃ cid, to_base58 (SHA256_MULTI_HASH ++ nft.content_hash) = some cid ∧
        execute h st h.zksync_proxy_address data =
          some (.ok (encode1 (.str ("ipfs://" ++ cid))))) ∧
    (st.get_nft_by_id tid = .ok none →
      execute h st h.zksync_proxy_address data = some (.ok [])) := by
  constructor
  · intro hnft
    have hget : get_nft st tid = .ok (some nft) := by
      rw [get_nft, if_neg (by omega : ¬ 4294967295 < tid), hnft]
    obtain ⟨cid, hcid⟩ := to_base58_total (SHA256_MULTI_HASH ++ nft.content_hash)
      (header_bytes_lt nft.content_hash hhash_bytes)
      (beVal_header_lt nft.content_hash hhash_len hhash_bytes)
    have hic : ipfs_cid nft.content_hash = some cid := by
      rw [ipfs_cid]
      exact hcid
    refine ⟨cid, hcid, ?_⟩
    simp only [execute, if_pos rfl, if_pos trivial, if_neg hlen, hsel, hdec,
      hname, hhead, AbiToken.into_uint, hget, hic]
  · intro hnone
    have hget : get_nft st tid = .ok none := by
      rw [get_nft, if_neg (by omega : ¬ 4294967295 < tid), hnone]
    simp only [execute, if_pos rfl, if_pos trivial, if_neg hlen, hsel, hdec,
      hname, hhead, AbiToken.into_uint, hget]

/-- C1 witness. -/
theorem tokenURI_witness :
    stOk.get_nft_by_id 5 = .ok (some nft5) ∧ nft5.content_hash.length = 32 ∧
    (∃ cid, to_base58 (SHA256_MULTI_HASH ++ nft5.content_hash) = some cid ∧
      execute helperW stOk helperW.zksync_proxy_address [3, 3, 3, 3] =
        some (.ok (encode1 (.str ("ipfs://" ++ cid))))) :=
  ⟨rfl, by decide,
    (tokenURI_spec helperW stOk [3, 3, 3, 3] fTokenURI [.uint 5] 5 nft5
      (by decide) rfl rfl rfl rfl (by decide) (by decide)
      (fun b hb => by rw [List.eq_of_mem_replicate hb]; omega)).1 rfl⟩

/-! ## Claim theorem: the selector table -/

set_option maxRecDepth 100000 in
/-- C2: every selector key produced by `gen_hashmap` is the first 4 bytes of
the keccak-256 hash of the canonical signature string
`name(type1,type2,...)` (types comma-joined, no whitespace, no parameter
names); concretely, `"balanceOf(address)"` hashes to the standard selector
`0x70a08231`. -/
theorem gen_hashmap_selector_spec :
    (∀ (fns : List Function) (sel : List Nat) (f : Function),
        (sel, f) ∈ gen_hashmap fns →
        sel = (keccak256 (strBytes
          (f.name ++ "(" ++ String.intercalate "," f.inputs ++ ")"))).take 4) ∧
    (keccak256 (strBytes "balanceOf(address)")).take 4 = [112, 160, 130, 49] := by
  constructor
  · intro fns sel f hmem
    rw [gen_hashmap] at hmem
    rcases List.mem_map.mp hmem with ⟨g, _, heq⟩
    rw [Prod.mk.injEq] at heq
    obtain ⟨h1, h2⟩ := heq
    subst h2
    exact h1.symm
  · decide

/-- C2 witness. -/
theorem gen_hashmap_selector_witness :
    (((keccak256 (strBytes "totalSupply()")).take 4, fTotalSupply)
        ∈ gen_hashmap [fTotalSupply]) ∧
    (keccak256 (strBytes "totalSupply()")).take 4
      = (keccak256 (strBytes (fTotalSupply.name ++ "(" ++
          String.intercalate "," fTotalSupply.inputs ++ ")"))).take 4 := by
  have hmem : ((keccak256 (strBytes "totalSupply()")).take 4, fTotalSupply)
      ∈ gen_hashmap [fTotalSupply] := by
    rw [gen_hashmap]
    exact List.mem_singleton.mpr rfl
  exact ⟨hmem, gen_hashmap_selector_spec.1 [fTotalSupply] _ _ hmem⟩

end ZkCalls
